import Mathlib

/-!
Shallow embedding of the music-theory core of the MusicNotesApp repository
(src/core/note_system.py, chord_system.py, scale_system.py, music_theory.py),
together with theorems settling the specification claims about it.
-/

namespace MusicApp

/-! ### Note model (src/core/note_system.py) -/

/-- The fixed sharp-spelling pitch-class ordering `Note.NOTES`, split in two
halves here only to keep the literal readable. -/
def NOTES : List String :=
  ["C", "C#", "D", "D#", "E", "F"] ++ ["F#", "G", "G#", "A", "A#", "B"]

/-- A note: pitch-class name and octave.  `Note.__eq__` compares both fields. -/
structure Note where
  name : String
  octave : Nat
deriving DecidableEq, Repr

/-- Value of a digit run, as Python `int` of the matched group. -/
def digitsVal (l : List Char) : Nat :=
  l.foldl (fun a c => a * 10 + (c.toNat - 48)) 0

/-- Second phase of `Note.__init__`: octave defaulting and flat normalization,
given the matched letter, optional accidental, and the remaining characters. -/
def mkParsed (c : Char) (acc : Option Char) (rest : List Char) : Note :=
  let digits := rest.takeWhile Char.isDigit
  let octave := if digits.isEmpty then 4 else digitsVal digits
  if acc == some 'b' then
    -- Normalize flats to sharps: NOTES[(NOTES.index(name[0]) - 1) % 12]
    let idx : Int := NOTES.indexOf (String.mk [c])
    ⟨NOTES.getD ((((idx - 1) % 12).toNat)) (""), octave⟩
  else
    match acc with
    | some a => ⟨String.mk [c, a], octave⟩
    | none => ⟨String.mk [c], octave⟩

/-- `Note.__init__`: `re.match` of `([A-G][#b]?)(\d+)?` against the input.
`re.match` anchors only at the start, so trailing characters are ignored;
`none` models the `ValueError` raised when there is no match. -/
def parseNote (s : String) : Option Note :=
  match s.toList with
  | [] => none
  | c :: rest =>
    if 'A' ≤ c && c ≤ 'G' then
      match rest with
      | a :: rest2 =>
        if a == '#' || a == 'b' then some (mkParsed c (some a) rest2)
        else some (mkParsed c none rest)
      | [] => some (mkParsed c none [])
    else none

/-- `Note.midi_number`.  Python raises when the name is not in `NOTES`;
there `List.indexOf` returns 12, a case no theorem below relies on. -/
def Note.midi (n : Note) : Int :=
  ((n.octave : Int) + 1) * 12 + (NOTES.indexOf n.name : Nat)

/-- `Note.__str__`: name followed by the decimal octave. -/
def Note.str (n : Note) : String :=
  n.name ++ toString n.octave

/-- `Note.transpose`: computes the new absolute index, then rebuilds the note
through the string constructor, exactly as the Python code does.  The parse
cannot fail (the new name is drawn from `NOTES`), so the `getD` default is
unreachable. -/
def Note.transpose (n : Note) (s : Int) : Note :=
  let newMidi := n.midi + s
  let newOctave := newMidi / 12 - 1
  let newName := NOTES.getD ((newMidi % 12).toNat) ("")
  (parseNote (newName ++ toString newOctave)).getD n

/-- `Note.get_interval`. -/
def Note.getInterval (a b : Note) : Int :=
  b.midi - a.midi

/-! ### Interval table (src/core/note_system.py) -/

/-- `Interval.INTERVALS`, in insertion order. -/
def INTERVALS : List (String × Int) :=
  [("P1", 0), ("m2", 1), ("M2", 2), ("m3", 3), ("M3", 4), ("P4", 5),
   ("TT", 6), ("P5", 7), ("m6", 8), ("M6", 9), ("m7", 10), ("M7", 11),
   ("P8", 12)]

/-- `Interval.get_name`: first table entry whose value equals `semitones % 12`. -/
def Interval.getName (semitones : Int) : String :=
  match INTERVALS.find? (fun p => p.2 == semitones % 12) with
  | some p => p.1
  | none => "Unknown"

/-! ### Chord model (src/core/chord_system.py) -/

/-- A chord: root note, type name, interval formula. -/
structure Chord where
  root : Note
  chordType : String
  formula : List Int
deriving DecidableEq, Repr

/-- `Chord._build_notes`: the root, then the root transposed by each formula
entry after the first. -/
def Chord.notes (c : Chord) : List Note :=
  c.root :: (c.formula.drop 1).map (fun i => c.root.transpose i)

/-- `Chord.contains_note`: membership by pitch-class name, octave ignored. -/
def Chord.containsNote (c : Chord) (n : Note) : Bool :=
  c.notes.any (fun cn => cn.name == n.name)

/-- Python substring containment (`needle in hay`). -/
def strContains (hay needle : String) : Bool :=
  hay.toList.tails.any (fun t => needle.toList.isPrefixOf t)

/-- The scan shared by the branches of `Chord.get_triad`: index (counting from
`start`) of the first note whose interval from the root, mod 12, satisfies
the predicate. -/
def findNoteIdx (root : Note) (pred : Int → Bool) : List Note → Nat → Option Nat
  | [], _ => none
  | n :: rest, i =>
    if pred ((root.getInterval n) % 12) then some i
    else findNoteIdx root pred rest (i + 1)

/-- `Chord.get_triad`. -/
def Chord.getTriad (c : Chord) : List Note :=
  let notes := c.notes
  if notes.length < 3 then notes
  else
    let thirdIdx :=
      if strContains c.chordType ("sus2") then
        findNoteIdx c.root (fun iv => iv == 2) (notes.drop 1) 1
      else if strContains c.chordType ("sus4") then
        findNoteIdx c.root (fun iv => iv == 5) (notes.drop 1) 1
      else
        findNoteIdx c.root (fun iv => iv == 3 || iv == 4) (notes.drop 1) 1
    let fifthIdx := findNoteIdx c.root (fun iv => iv == 7) (notes.drop 1) 1
    let triadIndices := [0] ++ thirdIdx.toList ++ fifthIdx.toList
    triadIndices.filterMap (fun i => notes.get? i)

/-! ### Scale model (src/core/scale_system.py) -/

/-- A scale: root note, type name, interval formula. -/
structure Scale where
  root : Note
  scaleType : String
  formula : List Int
deriving DecidableEq, Repr

/-- `Scale._build_notes`, same pattern as `Chord._build_notes`. -/
def Scale.notes (s : Scale) : List Note :=
  s.root :: (s.formula.drop 1).map (fun i => s.root.transpose i)

/-- `Scale.contains_note`: membership by pitch-class name, octave ignored. -/
def Scale.containsNote (s : Scale) (n : Note) : Bool :=
  s.notes.any (fun sn => sn.name == n.name)

/-- `Scale.get_mode`.  `none` models the `ValueError` on an out-of-range
degree.  The list indexings are in bounds whenever the formula is non-empty
(then `len(notes) == len(formula)`), which is where Python runs them. -/
def Scale.getMode (s : Scale) (degree : Int) : Option Scale :=
  if degree < 1 || degree > (s.notes.length : Int) then none
  else
    match s.notes.get? ((degree - 1).toNat) with
    | none => none
    | some modeRoot =>
      some ⟨modeRoot, s.scaleType ++ " mode " ++ toString degree,
        (List.range s.notes.length).map (fun i =>
          if i = 0 then 0
          else (s.formula.getD (((degree - 1).toNat + i) % s.notes.length) 0 -
            s.formula.getD ((degree - 1).toNat) 0) % 12)⟩

/-! ### Theory engine (src/core/music_theory.py) -/

/-- A fretboard chord position. -/
structure ChordPosition where
  frets : List Nat
  fingers : List Nat
  barre : Option (Nat × Nat)
deriving DecidableEq, Repr

/-- The engine state after `_load_data`: the three JSON tables, as ordered
association lists (Python dicts preserve insertion order). -/
structure MusicTheory where
  chordFormulas : List (String × List Int)
  scaleFormulas : List (String × List Int)
  tunings : List (String × List String)

/-- `MusicTheory.get_chords_in_scale`: degrees outer loop, chord types inner
loop, keeping the types whose every formula interval lands (by name) in the
scale. -/
def MusicTheory.getChordsInScale (mt : MusicTheory) (scale : Scale) : List Chord :=
  scale.notes.flatMap (fun degree =>
    mt.chordFormulas.filterMap (fun p =>
      if p.2.all (fun interval => scale.containsNote (degree.transpose interval))
      then some (Chord.mk degree p.1 p.2)
      else none))

/-- The recursive search `find_positions` inside `get_chord_positions`,
recursing on the strings not yet assigned instead of on the string index
(the index is only compared with the string count).  Fret loop outer,
finger loop inner, emission in depth-first order, as in the source. -/
def findPositions (chord : Chord) (tuningNotes : List Note) (maxFret : Nat) :
    List Note → List Nat → List Nat → List ChordPosition
  | [], currentFrets, currentFingers =>
    let notes := (tuningNotes.zip currentFrets).map (fun p => p.1.transpose (p.2 : Int))
    if notes.all (fun note => chord.notes.any (fun cn => cn.name == note.name)) then
      let barre :=
        if currentFrets.eraseDups.length == 1 && currentFrets.headD 0 > 0 then
          some (0, currentFrets.headD 0)
        else none
      [⟨currentFrets, currentFingers, barre⟩]
    else []
  | _ :: rest, currentFrets, currentFingers =>
    (List.range (maxFret + 1)).flatMap (fun fret =>
      if !currentFrets.isEmpty &&
          ((fret : Int) - (currentFrets.getLastD 0 : Int)).natAbs > 4 then []
      else
        [1, 2, 3, 4].flatMap (fun finger =>
          if finger ∈ currentFingers then []
          else
            findPositions chord tuningNotes maxFret rest
              (currentFrets ++ [fret]) (currentFingers ++ [finger])))

/-- Python `max(p.frets)` (frets are naturals and the list is non-empty at
every use, so the 0 seed is inert). -/
def maxFrets (l : List Nat) : Nat :=
  l.foldl max 0

/-- The sort key of `get_chord_positions`: `(len(p.fingers), max(p.frets))`,
compared lexicographically, ascending. -/
def posLE (p q : ChordPosition) : Bool :=
  p.fingers.length < q.fingers.length ||
    (p.fingers.length == q.fingers.length && maxFrets p.frets ≤ maxFrets q.frets)

/-- One insertion step of the stable sort below. -/
def insertPos (p : ChordPosition) : List ChordPosition → List ChordPosition
  | [] => [p]
  | q :: rest => if posLE p q then p :: q :: rest else q :: insertPos p rest

/-- Python `positions.sort(key=...)` is a stable sort; a stable sort by a
fixed key is extensionally unique, so stable insertion sort is the same
function. -/
def sortPositions : List ChordPosition → List ChordPosition
  | [] => []
  | p :: rest => insertPos p (sortPositions rest)

/-- `MusicTheory.get_chord_positions`: validate the tuning name and
`max_fret`, construct the open-string notes, run the search, stable-sort by
playability, return the first 10.  `Except.error` models the raised
`ValueError`s; an unparsable open-string name (which would raise in Python)
also maps to an error. -/
def MusicTheory.getChordPositions (mt : MusicTheory) (chord : Chord)
    (tuning : String) (maxFret : Int) : Except String (List ChordPosition) :=
  match mt.tunings.lookup tuning with
  | none => .error ("Unknown tuning: " ++ tuning)
  | some tuningStrs =>
    if !(0 ≤ maxFret && maxFret ≤ 24) then
      .error ("max_fret must be between 0 and 24")
    else
      match tuningStrs.mapM parseNote with
      | none => .error ("Invalid note format")
      | some tuningNotes =>
        let positions := findPositions chord tuningNotes maxFret.toNat tuningNotes [] []
        .ok ((sortPositions positions).take 10)

/-- Python `min(p.frets)` (non-empty at every use). -/
def minFrets (l : List Nat) : Nat :=
  l.foldl min (l.headD 0)

/-- Fret span of a position, as the spec words it: max fret minus min fret. -/
def fretSpan (l : List Nat) : Nat :=
  maxFrets l - minFrets l

/-- The decimal digit characters of a natural number, most significant digit
first: the functional specification of core `Nat.toDigits 10`. -/
def decDigits (n : Nat) : List Char :=
  if n < 10 then [Nat.digitChar n]
  else decDigits (n / 10) ++ [Nat.digitChar (n % 10)]
termination_by n
decreasing_by exact Nat.div_lt_self (by omega) (by omega)

/-- Reference definition for claim C7, written from the spec's words: for
every scale degree in order (outer loop) and every registered chord type in
registration order (inner loop), emit the chord exactly when every formula
offset carries the degree (by pitch-class name) into the scale's note-name
set. -/
def getChordsInScaleSpec (mt : MusicTheory) (scale : Scale) : List Chord :=
  scale.notes.flatMap (fun degree =>
    (mt.chordFormulas.filter (fun p =>
      decide (∀ off ∈ p.2, (degree.transpose off).name ∈ scale.notes.map Note.name))).map
      (fun p => Chord.mk degree p.1 p.2))

/-! ### Facts about decimal rendering -/

lemma digitChar_lt_ten : ∀ k, k < 10 →
    (Nat.digitChar k).isDigit = true ∧ (Nat.digitChar k).toNat - 48 = k := by
  decide

lemma toDigitsCore_eq_decDigits :
    ∀ (fuel n : Nat) (ds : List Char), n < fuel →
      Nat.toDigitsCore 10 fuel n ds = decDigits n ++ ds := by
  intro fuel
  induction fuel with
  | zero => omega
  | succ fuel ih =>
    intro n ds h
    simp only [Nat.toDigitsCore]
    by_cases h10 : n / 10 = 0
    · have hn : n < 10 := by omega
      rw [if_pos h10, decDigits, if_pos hn, Nat.mod_eq_of_lt hn]
      rfl
    · have hd : n / 10 < n := Nat.div_lt_self (by omega) (by omega)
      have hlt : n / 10 < fuel := by omega
      rw [if_neg h10, ih (n / 10) _ hlt]
      conv_rhs => rw [decDigits]
      rw [if_neg (show ¬ n < 10 by omega)]
      simp

lemma decDigits_all_digit (n : Nat) : ∀ c ∈ decDigits n, c.isDigit = true := by
  induction n using decDigits.induct with
  | case1 n h =>
    rw [decDigits, if_pos h]
    intro c hc
    simp only [List.mem_singleton] at hc
    subst hc
    exact (digitChar_lt_ten n h).1
  | case2 n h ih =>
    rw [decDigits, if_neg h]
    intro c hc
    rcases List.mem_append.mp hc with hc | hc
    · exact ih c hc
    · simp only [List.mem_singleton] at hc
      subst hc
      exact (digitChar_lt_ten (n % 10) (Nat.mod_lt _ (by omega))).1

lemma decDigits_ne_nil (n : Nat) : decDigits n ≠ [] := by
  rw [decDigits]
  split
  · simp
  · simp

lemma digitsVal_append_one (l : List Char) (c : Char) :
    digitsVal (l ++ [c]) = digitsVal l * 10 + (c.toNat - 48) := by
  unfold digitsVal
  rw [List.foldl_append, List.foldl_cons, List.foldl_nil]

lemma digitsVal_decDigits (n : Nat) : digitsVal (decDigits n) = n := by
  induction n using decDigits.induct with
  | case1 n h =>
    rw [decDigits, if_pos h]
    have := (digitChar_lt_ten n h).2
    unfold digitsVal
    simp only [List.foldl_cons, List.foldl_nil]
    omega
  | case2 n h ih =>
    rw [decDigits, if_neg h, digitsVal_append_one, ih]
    have := (digitChar_lt_ten (n % 10) (Nat.mod_lt _ (by omega))).2
    have hm : n % 10 < 10 := Nat.mod_lt _ (by omega)
    omega

/-- `toString` of a natural renders exactly the digits `decDigits`. -/
lemma toString_nat_toList (n : Nat) : (toString n).toList = decDigits n := by
  show (Nat.toDigits 10 n).asString.toList = decDigits n
  rw [show Nat.toDigits 10 n = Nat.toDigitsCore 10 (n + 1) n [] from rfl,
    toDigitsCore_eq_decDigits (n + 1) n [] (Nat.lt_succ_self n)]
  simp [List.asString, String.toList]

/-! ### Parse / render round trip -/

lemma isDigit_not_accidental (c : Char) (h : c.isDigit = true) :
    (c == '#') = false ∧ (c == 'b') = false := by
  constructor
  · by_cases e : c = '#'
    · subst e
      exact absurd h (by decide)
    · exact beq_eq_false_iff_ne.mpr e
  · by_cases e : c = 'b'
    · subst e
      exact absurd h (by decide)
    · exact beq_eq_false_iff_ne.mpr e

lemma parseNote_cons (c : Char) (rest : List Char) (s : String)
    (hs : s.toList = c :: rest) :
    parseNote s =
      if 'A' ≤ c && c ≤ 'G' then
        match rest with
        | a :: rest2 =>
          if a == '#' || a == 'b' then some (mkParsed c (some a) rest2)
          else some (mkParsed c none rest)
        | [] => some (mkParsed c none [])
      else none := by
  unfold parseNote
  rw [hs]

lemma toList_name_append (nm : String) (o : Nat) :
    (nm ++ toString o).toList = nm.toList ++ decDigits o := by
  show (nm ++ toString o).data = nm.data ++ decDigits o
  rw [String.data_append]
  congr 1
  exact toString_nat_toList o

lemma mkParsed_none_digits (c : Char) (l : List Char) (hne : l ≠ [])
    (hdig : ∀ x ∈ l, x.isDigit = true) :
    mkParsed c none l = ⟨String.mk [c], digitsVal l⟩ := by
  have he : l.isEmpty = false := by
    cases l
    · exact absurd rfl hne
    · rfl
  unfold mkParsed
  rw [List.takeWhile_eq_self_iff.mpr hdig]
  simp [he]

lemma mkParsed_sharp_digits (c : Char) (l : List Char) (hne : l ≠ [])
    (hdig : ∀ x ∈ l, x.isDigit = true) :
    mkParsed c (some '#') l = ⟨String.mk [c, '#'], digitsVal l⟩ := by
  have he : l.isEmpty = false := by
    cases l
    · exact absurd rfl hne
    · rfl
  unfold mkParsed
  rw [List.takeWhile_eq_self_iff.mpr hdig]
  simp [he]

lemma mkParsed_flat_digits (c : Char) (l : List Char) (hne : l ≠ [])
    (hdig : ∀ x ∈ l, x.isDigit = true) :
    mkParsed c (some 'b') l =
      ⟨NOTES.getD ((((NOTES.indexOf (String.mk [c]) : Int) - 1) % 12).toNat) (""),
        digitsVal l⟩ := by
  have he : l.isEmpty = false := by
    cases l
    · exact absurd rfl hne
    · rfl
  unfold mkParsed
  rw [List.takeWhile_eq_self_iff.mpr hdig]
  simp [he]

/-- Parsing a well-formed name (a letter, or a letter followed by a sharp)
concatenated with a decimal octave recovers exactly that name and octave. -/
lemma parse_name_digits (nm : String) (o : Nat)
    (hshape : ∃ c, 'A' ≤ c ∧ c ≤ 'G' ∧ (nm = String.mk [c] ∨ nm = String.mk [c, '#'])) :
    parseNote (nm ++ toString o) = some ⟨nm, o⟩ := by
  obtain ⟨c, h1, h2, hcase⟩ := hshape
  have hcond : ('A' ≤ c && c ≤ 'G') = true := by
    rw [Bool.and_eq_true, decide_eq_true_iff, decide_eq_true_iff]
    exact ⟨h1, h2⟩
  obtain ⟨d, rest, hd⟩ : ∃ d rest, decDigits o = d :: rest := by
    cases hdd : decDigits o with
    | nil => exact absurd hdd (decDigits_ne_nil o)
    | cons d rest => exact ⟨d, rest, rfl⟩
  have hdig : ∀ x ∈ decDigits o, x.isDigit = true := decDigits_all_digit o
  have hdd : d.isDigit = true := hdig d (hd ▸ List.mem_cons_self d rest)
  have hacc := isDigit_not_accidental d hdd
  rcases hcase with hnm | hnm <;> subst hnm
  · rw [parseNote_cons c (d :: rest) _ (by rw [toList_name_append, hd]; rfl)]
    rw [if_pos hcond]
    show (if (d == '#' || d == 'b') = true then some (mkParsed c (some d) rest)
      else some (mkParsed c none (d :: rest))) = some ⟨String.mk [c], o⟩
    rw [if_neg (by rw [hacc.1, hacc.2]; simp)]
    rw [← hd, mkParsed_none_digits c (decDigits o) (decDigits_ne_nil o) hdig,
      digitsVal_decDigits]
  · rw [parseNote_cons c ('#' :: decDigits o) _ (by rw [toList_name_append]; rfl)]
    rw [if_pos hcond]
    show (if (('#' : Char) == '#' || ('#' : Char) == 'b') = true then
        some (mkParsed c (some '#') (decDigits o))
      else some (mkParsed c none ('#' :: decDigits o))) = some ⟨String.mk [c, '#'], o⟩
    rw [if_pos (by decide)]
    rw [mkParsed_sharp_digits c (decDigits o) (decDigits_ne_nil o) hdig,
      digitsVal_decDigits]

lemma parse_flat_digits (c : Char) (h1 : 'A' ≤ c) (h2 : c ≤ 'G') (o : Nat) :
    parseNote (String.mk [c, 'b'] ++ toString o) =
      some ⟨NOTES.getD ((((NOTES.indexOf (String.mk [c]) : Int) - 1) % 12).toNat) (""),
        o⟩ := by
  have hcond : ('A' ≤ c && c ≤ 'G') = true := by
    rw [Bool.and_eq_true, decide_eq_true_iff, decide_eq_true_iff]
    exact ⟨h1, h2⟩
  rw [parseNote_cons c ('b' :: decDigits o) _ (by rw [toList_name_append]; rfl)]
  rw [if_pos hcond]
  show (if (('b' : Char) == '#' || ('b' : Char) == 'b') = true then
      some (mkParsed c (some 'b') (decDigits o))
    else some (mkParsed c none ('b' :: decDigits o))) = _
  rw [if_pos (by decide)]
  rw [mkParsed_flat_digits c (decDigits o) (decDigits_ne_nil o) (decDigits_all_digit o),
    digitsVal_decDigits]

lemma mem_NOTES_getD (k : Nat) (hk : k < 12) : NOTES.getD k ("") ∈ NOTES := by
  have hlen : k < NOTES.length := by
    rw [show NOTES.length = 12 from rfl]
    exact hk
  rw [List.getD_eq_getElem NOTES ("") hlen]
  exact List.getElem_mem hlen

/-- Any name produced by the note constructor is a plain letter, a letter
followed by a sharp, or an element of `NOTES` (from flat normalization). -/
lemma parseNote_name_shape (s : String) (n : Note) (h : parseNote s = some n) :
    (∃ c, 'A' ≤ c ∧ c ≤ 'G' ∧ (n.name = String.mk [c] ∨ n.name = String.mk [c, '#'])) ∨
      n.name ∈ NOTES := by
  rcases hs : s.toList with _ | ⟨c, rest⟩
  · rw [show parseNote s = none from by unfold parseNote; rw [hs]] at h
    exact absurd h (by simp)
  · rw [parseNote_cons c rest s hs] at h
    by_cases hc : ('A' ≤ c && c ≤ 'G') = true
    · rw [if_pos hc] at h
      have hc' : 'A' ≤ c ∧ c ≤ 'G' := by
        rw [Bool.and_eq_true, decide_eq_true_iff, decide_eq_true_iff] at hc
        exact hc
      rcases rest with _ | ⟨a, rest2⟩
      · have hn := Option.some.inj h
        exact Or.inl ⟨c, hc'.1, hc'.2, Or.inl (by rw [← hn]; rfl)⟩
      · replace h : (if (a == '#' || a == 'b') = true then some (mkParsed c (some a) rest2)
            else some (mkParsed c none (a :: rest2))) = some n := h
        by_cases ha : (a == '#' || a == 'b') = true
        · rw [if_pos ha] at h
          have hn := Option.some.inj h
          simp only [Bool.or_eq_true, beq_iff_eq] at ha
          rcases ha with ha' | ha'
          · subst ha'
            exact Or.inl ⟨c, hc'.1, hc'.2, Or.inr (by rw [← hn]; rfl)⟩
          · subst ha'
            refine Or.inr ?_
            rw [← hn]
            show NOTES.getD (((((NOTES.indexOf (String.mk [c]) : Nat) : Int) - 1) %
              12).toNat) ("") ∈ NOTES
            apply mem_NOTES_getD
            have hlo : 0 ≤ ((((NOTES.indexOf (String.mk [c]) : Nat) : Int) - 1) % 12) :=
              Int.emod_nonneg _ (by omega)
            have hhi : ((((NOTES.indexOf (String.mk [c]) : Nat) : Int) - 1) % 12) < 12 :=
              Int.emod_lt_of_pos _ (by omega)
            omega
        · rw [if_neg ha] at h
          have hn := Option.some.inj h
          exact Or.inl ⟨c, hc'.1, hc'.2, Or.inl (by rw [← hn]; rfl)⟩
    · rw [if_neg hc] at h
      exact absurd h (by simp)

lemma notes_shape :
    ∀ nm ∈ NOTES, ∃ c ∈ (['A', 'B', 'C', 'D', 'E', 'F', 'G'] : List Char),
      nm = String.mk [c] ∨ nm = String.mk [c, '#'] := by
  decide

lemma letters_range :
    ∀ c ∈ (['A', 'B', 'C', 'D', 'E', 'F', 'G'] : List Char), 'A' ≤ c ∧ c ≤ 'G' := by
  decide

/-- C8: for every Note constructed from a valid note string, re-parsing its
string rendering yields the same note: `parse(str(note)) == note`. -/
theorem parse_str_roundtrip (s : String) (n : Note) (h : parseNote s = some n) :
    parseNote n.str = some n := by
  obtain ⟨nm, oc⟩ := n
  show parseNote (nm ++ toString oc) = some ⟨nm, oc⟩
  rcases parseNote_name_shape s ⟨nm, oc⟩ h with ⟨c, h1, h2, hcase⟩ | hmem
  · exact parse_name_digits nm oc ⟨c, h1, h2, hcase⟩
  · obtain ⟨c, hcl, hcase⟩ := notes_shape nm hmem
    exact parse_name_digits nm oc ⟨c, (letters_range c hcl).1, (letters_range c hcl).2, hcase⟩

/-- Witness for C8 at the concrete input "C#4". -/
theorem parse_str_roundtrip_witness :
    parseNote ("C#4") = some ⟨"C#", 4⟩ ∧ parseNote (Note.str ⟨"C#", 4⟩) = some ⟨"C#", 4⟩ :=
  ⟨by decide, parse_str_roundtrip ("C#4") ⟨"C#", 4⟩ (by decide)⟩

/-- C10: flat normalization at construction never changes the octave: for a
letter `L` and any octave `o`, parsing `"Lb" ++ o` gives the sharp-spelled
name one `NOTES` slot below `L` (mod 12) and octave exactly `o`.  Concretely,
`Note("Cb4")` is `B` octave 4, MIDI 71, eleven semitones above C4 (MIDI 60)
rather than one below it. -/
theorem flat_normalization_keeps_octave :
    (∀ c : Char, 'A' ≤ c → c ≤ 'G' → ∀ o : Nat,
      parseNote (String.mk [c, 'b'] ++ toString o) =
        some ⟨NOTES.getD ((((NOTES.indexOf (String.mk [c]) : Int) - 1) % 12).toNat) (""),
          o⟩) ∧
    parseNote ("Cb4") = some ⟨"B", 4⟩ ∧
    Note.midi ⟨"B", 4⟩ = 71 ∧ Note.midi ⟨"C", 4⟩ = 60 := by
  refine ⟨?_, by decide, by decide, by decide⟩
  intro c h1 h2 o
  exact parse_flat_digits c h1 h2 o

/-- C2: the transpose round-trip `n.transpose(s).transpose(-s) == n` fails
when the intermediate octave is negative: transposing C0 down an octave
renders the string "C-1", whose "-1" is not matched by the octave digits
group, so the octave silently defaults to 4; transposing back up yields C5,
not C0. -/
theorem transpose_roundtrip_fails_on_negative_octave :
    (Note.mk ("C") 0).transpose (-12) = ⟨"C", 4⟩ ∧
    ((Note.mk ("C") 0).transpose (-12)).transpose (12 : Int) = ⟨"C", 5⟩ ∧
    ¬((Note.mk ("C") 0).transpose (-12)).transpose (12 : Int) = ⟨"C", 0⟩ := by
  decide

/-- C3 counterexample: there is no exact-match special case for 12 in
`Interval.get_name`; both 12 and 0 resolve to "P1", and "P8" is never
returned. -/
theorem interval_name_twelve_not_P8 :
    Interval.getName 12 = "P1" ∧ Interval.getName 0 = "P1" ∧
      ¬Interval.getName 12 = "P8" := by
  decide

/-- C3 amended: every input to `Interval.get_name` resolves purely by mod-12
lookup; 12 and 0 therefore resolve to the same name "P1", and "P8" (the only
table entry with value 12) is unreachable. -/
theorem interval_name_pure_mod_lookup :
    (∀ s : Int, Interval.getName s = Interval.getName (s % 12)) ∧
    Interval.getName 12 = "P1" ∧ Interval.getName 0 = "P1" ∧
    (∀ s : Int, Interval.getName s ≠ "P8") := by
  have hmod : ∀ s : Int, Interval.getName s = Interval.getName (s % 12) := by
    intro s
    unfold Interval.getName
    rw [Int.emod_emod_of_dvd s (dvd_refl 12)]
  refine ⟨hmod, by decide, by decide, ?_⟩
  intro s
  have h0 : 0 ≤ s % 12 := Int.emod_nonneg s (by omega)
  have h12 : s % 12 < 12 := Int.emod_lt_of_pos s (by omega)
  have hdec : ∀ k : Nat, k < 12 → Interval.getName ((k : Nat) : Int) ≠ "P8" := by decide
  have hk : (((s % 12).toNat : Nat) : Int) = s % 12 := by omega
  rw [hmod s, ← hk]
  exact hdec ((s % 12).toNat) (by omega)

/-- C4 counterexample: a trailing character after a valid prefix does not
make construction fail; `Note("C4x")` succeeds as C4. -/
theorem note_parse_trailing_chars_accepted :
    parseNote ("C4x") = some ⟨"C", 4⟩ ∧ ¬parseNote ("C4x") = none := by
  decide

/-- C4 amended: construction fails with InvalidFormat iff the pattern
`[A-G][#b]?digits?` does not match at the START of the input, i.e. iff the
input is empty or its first character is outside A..G (the accidental and
digit groups are optional and trailing characters are ignored);
`Note("H4")` fails, while `Note("C4x")` succeeds as C4. -/
theorem parse_fails_iff_bad_start :
    (∀ s : String, parseNote s = none ↔
      ∀ c rest, s.toList = c :: rest → ¬('A' ≤ c ∧ c ≤ 'G')) ∧
    parseNote ("H4") = none ∧ parseNote ("C4x") = some ⟨"C", 4⟩ := by
  refine ⟨?_, by decide, by decide⟩
  intro s
  rcases hs : s.toList with _ | ⟨c, rest⟩
  · rw [show parseNote s = none from by unfold parseNote; rw [hs]]
    constructor
    · intro _ c rest hcr
      exact absurd hcr (by simp)
    · intro _
      rfl
  · rw [parseNote_cons c rest s hs]
    by_cases hc : ('A' ≤ c && c ≤ 'G') = true
    · have hc' : 'A' ≤ c ∧ c ≤ 'G' := by
        rw [Bool.and_eq_true, decide_eq_true_iff, decide_eq_true_iff] at hc
        exact hc
      rw [if_pos hc]
      constructor
      · intro hmatch
        exfalso
        rcases rest with _ | ⟨a, r2⟩
        · exact absurd hmatch (by simp)
        · replace hmatch : (if (a == '#' || a == 'b') = true then
              some (mkParsed c (some a) r2)
            else some (mkParsed c none (a :: r2))) = none := hmatch
          by_cases ha : (a == '#' || a == 'b') = true
          · rw [if_pos ha] at hmatch
            exact absurd hmatch (by simp)
          · rw [if_neg ha] at hmatch
            exact absurd hmatch (by simp)
      · intro hr
        exact absurd hc' (hr c rest rfl)
    · have hc' : ¬('A' ≤ c ∧ c ≤ 'G') := by
        intro hcontra
        apply hc
        rw [Bool.and_eq_true, decide_eq_true_iff, decide_eq_true_iff]
        exact hcontra
      rw [if_neg hc]
      constructor
      · intro _ c' rest' hcr
        injection hcr with e1 e2
        subst e1
        exact hc'
      · intro _
        rfl

/-- C9: the Major triad of C4 is exactly [C4, E4, G4]: the root, the note 4
semitones above it, and the note 7 semitones above it, in that order. -/
theorem c_major_triad :
    parseNote ("C4") = some ⟨"C", 4⟩ ∧
    (Chord.mk ⟨"C", 4⟩ ("Major") [0, 4, 7]).getTriad = [⟨"C", 4⟩, ⟨"E", 4⟩, ⟨"G", 4⟩] ∧
    (Note.mk ("C") 4).transpose 4 = ⟨"E", 4⟩ ∧
    (Note.mk ("C") 4).transpose 7 = ⟨"G", 4⟩ := by
  decide

lemma filterMap_ite_eq_filter_map {α β : Type} (P : α → Bool) (g : α → β) :
    ∀ l : List α,
      l.filterMap (fun a => if P a then some (g a) else none) = (l.filter P).map g := by
  intro l
  induction l with
  | nil => rfl
  | cons a t ih =>
    by_cases h : P a = true
    · simp [List.filterMap_cons, List.filter_cons, h, ih]
    · simp [List.filterMap_cons, List.filter_cons, h, ih]

/-- C7: `get_chords_in_scale` returns exactly the chords whose every tone
(by pitch-class name) lies in the scale's note-name set, rooted at each
scale degree, with degrees as the outer loop in scale order and chord types
as the inner loop in table registration order. -/
theorem get_chords_in_scale_spec (mt : MusicTheory) (scale : Scale) :
    mt.getChordsInScale scale = getChordsInScaleSpec mt scale := by
  unfold MusicTheory.getChordsInScale getChordsInScaleSpec
  congr 1
  funext degree
  rw [filterMap_ite_eq_filter_map
    (fun p => p.2.all (fun interval => scale.containsNote (degree.transpose interval)))
    (fun p => Chord.mk degree p.1 p.2) mt.chordFormulas]
  congr 1
  apply List.filter_congr
  intro p _
  apply Bool.eq_iff_iff.mpr
  rw [List.all_eq_true, decide_eq_true_iff]
  constructor
  · intro h off hoff
    have hc := h off hoff
    unfold Scale.containsNote at hc
    rw [List.any_eq_true] at hc
    obtain ⟨sn, hsn, hbeq⟩ := hc
    exact List.mem_map.mpr ⟨sn, hsn, eq_of_beq hbeq⟩
  · intro h off hoff
    show Scale.containsNote scale (degree.transpose off) = true
    unfold Scale.containsNote
    rw [List.any_eq_true]
    obtain ⟨sn, hsn, hname⟩ := List.mem_map.mp (h off hoff)
    exact ⟨sn, hsn, beq_iff_eq.mpr hname⟩

/-- C6: for every Scale with a non-empty formula starting at 0, `get_mode`
fails exactly when the degree is outside `[1, len(notes)]`; in range it
returns a Scale rooted at `notes[degree-1]` whose formula has the same
length, starts at 0, and at position `i` equals
`(formula[(degree-1+i) % len(formula)] - formula[degree-1]) mod 12`. -/
theorem get_mode_spec (s : Scale) (degree : Int)
    (hne : s.formula ≠ []) (h0 : s.formula.head? = some 0) :
    (s.getMode degree = none ↔ degree < 1 ∨ degree > (s.notes.length : Int)) ∧
    (∀ m, s.getMode degree = some m →
      m.root = s.notes.getD ((degree - 1).toNat) s.root ∧
      m.formula.length = s.formula.length ∧
      m.formula.getD 0 0 = 0 ∧
      (∀ i, i < s.formula.length →
        m.formula.getD i 0 =
          (s.formula.getD (((degree - 1).toNat + i) % s.formula.length) 0 -
            s.formula.getD ((degree - 1).toNat) 0) % 12)) := by
  have hlenpos : 0 < s.formula.length := List.length_pos.mpr hne
  have hlen : s.notes.length = s.formula.length := by
    unfold Scale.notes
    simp only [List.length_cons, List.length_map, List.length_drop]
    omega
  by_cases hdeg : degree < 1 ∨ degree > (s.notes.length : Int)
  · have hb : (decide (degree < 1) || decide (degree > ((s.notes.length : Nat) : Int)))
        = true := by
      rcases hdeg with h | h <;> simp [h]
    have hmode : s.getMode degree = none := by
      unfold Scale.getMode
      rw [if_pos hb]
    refine ⟨⟨fun _ => hdeg, fun _ => hmode⟩, ?_⟩
    intro m hm
    rw [hmode] at hm
    exact absurd hm (by simp)
  · have h1 : 1 ≤ degree := by omega
    have h2 : degree ≤ (s.notes.length : Int) := by
      rcases lt_or_ge ((s.notes.length : Nat) : Int) degree with h | h
      · exact absurd (Or.inr h) hdeg
      · exact h
    have hb : (decide (degree < 1) || decide (degree > ((s.notes.length : Nat) : Int)))
        = false := by
      simp only [Bool.or_eq_false_iff, decide_eq_false_iff_not]
      omega
    have hd : (degree - 1).toNat < s.notes.length := by omega
    have hget : s.notes.get? ((degree - 1).toNat) =
        some (s.notes.getD ((degree - 1).toNat) s.root) := by
      rw [List.get?_eq_getElem?, List.getElem?_eq_getElem hd, List.getD_eq_getElem _ _ hd]
    have hmode : s.getMode degree =
        some ⟨s.notes.getD ((degree - 1).toNat) s.root,
          s.scaleType ++ " mode " ++ toString degree,
          (List.range s.notes.length).map (fun i =>
            if i = 0 then 0
            else (s.formula.getD (((degree - 1).toNat + i) % s.notes.length) 0 -
              s.formula.getD ((degree - 1).toNat) 0) % 12)⟩ := by
      unfold Scale.getMode
      rw [if_neg (by rw [hb]; simp), hget]
    constructor
    · rw [hmode]
      exact ⟨fun h => absurd h (by simp), fun h => absurd h hdeg⟩
    · intro m hm
      rw [hmode] at hm
      replace hm := (Option.some.inj hm).symm
      subst hm
      refine ⟨rfl, by simp [hlen], ?_, ?_⟩
      · show ((List.range s.notes.length).map _).getD 0 0 = 0
        rw [List.getD_eq_getElem _ _ (by simpa using by omega : 0 <
          ((List.range s.notes.length).map _).length)]
        simp
      · intro i hi
        have hi' : i < s.notes.length := by omega
        have hilen : i < ((List.range s.notes.length).map (fun i =>
            if i = 0 then 0
            else (s.formula.getD (((degree - 1).toNat + i) % s.notes.length) 0 -
              s.formula.getD ((degree - 1).toNat) 0) % 12)).length := by
          simpa using hi'
        rw [List.getD_eq_getElem _ _ hilen]
        simp only [List.getElem_map, List.getElem_range]
        by_cases hz : i = 0
        · subst hz
          rw [if_pos rfl, Nat.add_zero, Nat.mod_eq_of_lt (by omega)]
          simp
        · rw [if_neg hz, hlen]

/-- Witness for C6 at the C major scale: degree 8 is rejected and degree 2
yields D Dorian. -/
theorem get_mode_spec_witness :
    (Scale.mk ⟨"C", 4⟩ ("Major") [0, 2, 4, 5, 7, 9, 11]).getMode 8 = none ∧
    (Scale.mk ⟨"C", 4⟩ ("Major") [0, 2, 4, 5, 7, 9, 11]).getMode 2 =
      some ⟨⟨"D", 4⟩, "Major mode 2", [0, 2, 3, 5, 7, 9, 10]⟩ :=
  ⟨(get_mode_spec (Scale.mk ⟨"C", 4⟩ ("Major") [0, 2, 4, 5, 7, 9, 11]) 8
      (by decide) (by decide)).1.mpr (by decide),
    by decide⟩

/-! ### The fingering search -/

lemma length_mapM_parseNote :
    ∀ (ts : List String) (l : List Note), ts.mapM parseNote = some l →
      l.length = ts.length := by
  intro ts
  induction ts with
  | nil =>
    intro l h
    rw [List.mapM_nil] at h
    cases Option.some.inj h
    rfl
  | cons a t ih =>
    intro l h
    rw [List.mapM_cons] at h
    cases hpa : parseNote a with
    | none => rw [hpa] at h; exact absurd h (by simp)
    | some x =>
      rw [hpa] at h
      cases hmt : t.mapM parseNote with
      | none => rw [hmt] at h; exact absurd h (by simp)
      | some xs =>
        rw [hmt] at h
        have : x :: xs = l := Option.some.inj h
        subst this
        simp [ih xs hmt]

/-- No complete assignment exists once the distinct fingers 1..4 cannot cover
the remaining strings: the search returns no position at all. -/
lemma findPositions_eq_nil_of_overfull (chord : Chord) (tuningNotes : List Note)
    (maxFret : Nat) :
    ∀ (remaining : List Note) (frets fingers : List Nat),
      fingers.Nodup → (∀ f ∈ fingers, f ∈ ([1, 2, 3, 4] : List Nat)) →
      4 < fingers.length + remaining.length →
      findPositions chord tuningNotes maxFret remaining frets fingers = [] := by
  intro remaining
  induction remaining with
  | nil =>
    intro frets fingers hnd hsub hlen
    exfalso
    have h1 : fingers.toFinset.card = fingers.length := List.toFinset_card_of_nodup hnd
    have h2 : fingers.toFinset ⊆ ([1, 2, 3, 4] : List Nat).toFinset := by
      intro x hx
      rw [List.mem_toFinset] at hx ⊢
      exact hsub x hx
    have h3 := Finset.card_le_card h2
    have h4 : ([1, 2, 3, 4] : List Nat).toFinset.card = 4 := by decide
    simp only [List.length_nil, Nat.add_zero] at hlen
    omega
  | cons x rest ih =>
    intro frets fingers hnd hsub hlen
    show (List.range (maxFret + 1)).flatMap _ = []
    apply List.flatMap_eq_nil_iff.mpr
    intro fret _
    by_cases hskip : (!frets.isEmpty &&
        ((fret : Int) - (frets.getLastD 0 : Int)).natAbs > 4 : Bool) = true
    · rw [if_pos hskip]
    · rw [if_neg hskip]
      apply List.flatMap_eq_nil_iff.mpr
      intro finger hfinger
      by_cases hmem : finger ∈ fingers
      · rw [if_pos hmem]
      · rw [if_neg hmem]
        apply ih
        · rw [List.nodup_append]
          exact ⟨hnd, List.nodup_singleton finger, List.disjoint_singleton.mpr hmem⟩
        · intro f hf
          rcases List.mem_append.mp hf with hf | hf
          · exact hsub f hf
          · rw [List.mem_singleton] at hf
            subst hf
            exact hfinger
        · simp only [List.length_append, List.length_singleton]
          simp only [List.length_cons] at hlen
          omega

/-- C1: for every chord, every tuning with more than 4 open strings, and
every max_fret in [0, 24], `get_chord_positions` returns the empty list:
every string must take a distinct finger from 1..4 (fret 0 included), so no
assignment can cover more than four strings. -/
theorem chord_positions_empty_beyond_four_strings (mt : MusicTheory) (chord : Chord)
    (tuning : String) (maxFret : Int) (ts : List String) (tuningNotes : List Note)
    (hlookup : mt.tunings.lookup tuning = some ts)
    (hparse : ts.mapM parseNote = some tuningNotes)
    (hcount : 4 < ts.length)
    (h0 : 0 ≤ maxFret) (h24 : maxFret ≤ 24) :
    mt.getChordPositions chord tuning maxFret = .ok [] := by
  unfold MusicTheory.getChordPositions
  rw [hlookup]
  have hcond : (!(decide (0 ≤ maxFret) && decide (maxFret ≤ 24))) = false := by
    simp [h0, h24]
  show (if (!(decide (0 ≤ maxFret) && decide (maxFret ≤ 24))) = true then
      (Except.error ("max_fret must be between 0 and 24") : Except String (List ChordPosition))
    else
      match mapM parseNote ts with
      | none => Except.error ("Invalid note format")
      | some notes =>
        Except.ok ((sortPositions
          (findPositions chord notes maxFret.toNat notes [] [])).take 10)) =
    Except.ok []
  rw [if_neg (by rw [hcond]; simp), hparse]
  have hnotes : 4 < tuningNotes.length := by
    rw [length_mapM_parseNote ts tuningNotes hparse]
    exact hcount
  show Except.ok ((sortPositions
    (findPositions chord tuningNotes maxFret.toNat tuningNotes [] [])).take 10) =
    Except.ok []
  rw [findPositions_eq_nil_of_overfull chord tuningNotes maxFret.toNat tuningNotes [] []
    List.nodup_nil (by intro f hf; cases hf) (by simpa using hnotes)]
  rfl

/-- Witness for C1: a standard six-string tuning yields no positions. -/
theorem chord_positions_empty_beyond_four_strings_witness :
    ((["E2", "A2", "D3", "G3", "B3", "E4"] : List String).mapM parseNote =
      some [⟨"E", 2⟩, ⟨"A", 2⟩, ⟨"D", 3⟩, ⟨"G", 3⟩, ⟨"B", 3⟩, ⟨"E", 4⟩]) ∧
    (MusicTheory.mk [] [] [("standard", ["E2", "A2", "D3", "G3", "B3", "E4"])]).getChordPositions
      (Chord.mk ⟨"C", 4⟩ ("Major") [0, 4, 7]) ("standard") 12 = .ok [] :=
  ⟨by decide,
    chord_positions_empty_beyond_four_strings
      (MusicTheory.mk [] [] [("standard", ["E2", "A2", "D3", "G3", "B3", "E4"])])
      (Chord.mk ⟨"C", 4⟩ ("Major") [0, 4, 7]) ("standard") 12
      (["E2", "A2", "D3", "G3", "B3", "E4"])
      ([⟨"E", 2⟩, ⟨"A", 2⟩, ⟨"D", 3⟩, ⟨"G", 3⟩, ⟨"B", 3⟩, ⟨"E", 4⟩])
      (by decide) (by decide) (by decide) (by decide) (by decide)⟩

lemma mem_insertPos (p q : ChordPosition) :
    ∀ l, p ∈ insertPos q l ↔ p = q ∨ p ∈ l := by
  intro l
  induction l with
  | nil => simp [insertPos]
  | cons r t ih =>
    by_cases h : posLE q r = true
    · simp [insertPos, h]
    · simp [insertPos, h, ih]
      tauto

lemma mem_sortPositions (p : ChordPosition) : ∀ l, p ∈ sortPositions l ↔ p ∈ l := by
  intro l
  induction l with
  | nil => simp [sortPositions]
  | cons q t ih => simp [sortPositions, mem_insertPos, ih]

/-- Both structural invariants maintained by the backtracking search: fingers
are never reused, and each appended fret sits within 4 of the previous one. -/
lemma findPositions_mem_invariant (chord : Chord) (tuningNotes : List Note)
    (maxFret : Nat) :
    ∀ (remaining : List Note) (frets fingers : List Nat),
      fingers.Nodup →
      List.Chain' (fun a b : Nat => ((b : Int) - (a : Int)).natAbs ≤ 4) frets →
      ∀ p ∈ findPositions chord tuningNotes maxFret remaining frets fingers,
        p.fingers.Nodup ∧
          List.Chain' (fun a b : Nat => ((b : Int) - (a : Int)).natAbs ≤ 4) p.frets := by
  intro remaining
  induction remaining with
  | nil =>
    intro frets fingers hnd hch p hp
    simp only [findPositions] at hp
    by_cases hcheck : (((tuningNotes.zip frets).map
        (fun q => q.1.transpose (q.2 : Int))).all
          (fun note => chord.notes.any (fun cn => cn.name == note.name))) = true
    · rw [if_pos hcheck] at hp
      rw [List.mem_singleton] at hp
      subst hp
      exact ⟨hnd, hch⟩
    · rw [if_neg hcheck] at hp
      cases hp
  | cons x rest ih =>
    intro frets fingers hnd hch p hp
    simp only [findPositions] at hp
    rw [List.mem_flatMap] at hp
    obtain ⟨fret, hfret, hp⟩ := hp
    by_cases hskip : (!frets.isEmpty &&
        decide (4 < ((fret : Int) - (frets.getLastD 0 : Int)).natAbs)) = true
    · rw [if_pos hskip] at hp
      cases hp
    · rw [if_neg hskip] at hp
      rw [List.mem_flatMap] at hp
      obtain ⟨finger, hfinger, hp⟩ := hp
      by_cases hmem : finger ∈ fingers
      · rw [if_pos hmem] at hp
        cases hp
      · rw [if_neg hmem] at hp
        refine ih (frets ++ [fret]) (fingers ++ [finger]) ?_ ?_ p hp
        · rw [List.nodup_append]
          exact ⟨hnd, List.nodup_singleton finger, List.disjoint_singleton.mpr hmem⟩
        · rw [List.chain'_append]
          refine ⟨hch, List.chain'_singleton fret, ?_⟩
          intro a ha b hb
          simp only [List.head?_cons, Option.mem_def, Option.some.injEq] at hb
          subst hb
          have hne : frets ≠ [] := by
            intro hnil
            rw [hnil] at ha
            simp at ha
          have hie : frets.isEmpty = false := by
            cases frets
            · exact absurd rfl hne
            · rfl
          have hlast : frets.getLastD 0 = a := by
            rw [List.getLastD_eq_getLast?, ha]
            rfl
          have hle : ¬(4 < ((fret : Int) - (frets.getLastD 0 : Int)).natAbs) := by
            intro hgt
            apply hskip
            rw [hie, decide_eq_true hgt]
            rfl
          rw [hlast] at hle
          omega

/-- C5 amended: every returned position has pairwise-distinct finger numbers,
and each pair of frets on ADJACENT strings differs by at most 4; the total
span (max fret minus min fret) is not bounded by 4 once more than two strings
are fretted, and tunings with more than four strings yield no positions at
all. -/
theorem chord_positions_fingers_nodup_frets_adjacent
    (mt : MusicTheory) (chord : Chord) (tuning : String) (maxFret : Int)
    (positions : List ChordPosition)
    (h : mt.getChordPositions chord tuning maxFret = .ok positions) :
    ∀ p ∈ positions, p.fingers.Nodup ∧
      List.Chain' (fun a b : Nat => ((b : Int) - (a : Int)).natAbs ≤ 4) p.frets := by
  intro p hp
  unfold MusicTheory.getChordPositions at h
  cases hlookup : mt.tunings.lookup tuning with
  | none =>
    rw [hlookup] at h
    exact absurd h (by simp)
  | some ts =>
    rw [hlookup] at h
    replace h : (if (!(decide (0 ≤ maxFret) && decide (maxFret ≤ 24))) = true then
        (Except.error ("max_fret must be between 0 and 24") :
          Except String (List ChordPosition))
      else
        match mapM parseNote ts with
        | none => Except.error ("Invalid note format")
        | some notes =>
          Except.ok ((sortPositions
            (findPositions chord notes maxFret.toNat notes [] [])).take 10)) =
      Except.ok positions := h
    by_cases hm : (!(decide (0 ≤ maxFret) && decide (maxFret ≤ 24))) = true
    · rw [if_pos hm] at h
      exact absurd h (by simp)
    · rw [if_neg hm] at h
      cases hparse : mapM parseNote ts with
      | none =>
        rw [hparse] at h
        exact absurd h (by simp)
      | some notes =>
        rw [hparse] at h
        replace h : Except.ok ((sortPositions
            (findPositions chord notes maxFret.toNat notes [] [])).take 10) =
          Except.ok positions := h
        have hpos := (Except.ok.inj h).symm
        subst hpos
        have hp' : p ∈ sortPositions (findPositions chord notes maxFret.toNat notes [] []) :=
          List.take_subset _ _ hp
        rw [mem_sortPositions] at hp'
        exact findPositions_mem_invariant chord notes maxFret.toNat notes [] []
          List.nodup_nil List.chain'_nil p hp'

/-- Witness for the amended C5 on a one-string tuning. -/
theorem chord_positions_fingers_nodup_frets_adjacent_witness :
    (MusicTheory.mk [("Single", [0])] [] [("one", ["C4"])]).getChordPositions
        (Chord.mk ⟨"C", 4⟩ ("Single") [0]) ("one") 0 =
      .ok [⟨[0], [1], none⟩, ⟨[0], [2], none⟩, ⟨[0], [3], none⟩, ⟨[0], [4], none⟩] ∧
    ∀ p ∈ ([⟨[0], [1], none⟩, ⟨[0], [2], none⟩, ⟨[0], [3], none⟩,
        ⟨[0], [4], none⟩] : List ChordPosition),
      p.fingers.Nodup ∧
        List.Chain' (fun a b : Nat => ((b : Int) - (a : Int)).natAbs ≤ 4) p.frets :=
  ⟨by rfl,
    chord_positions_fingers_nodup_frets_adjacent
      (MusicTheory.mk [("Single", [0])] [] [("one", ["C4"])])
      (Chord.mk ⟨"C", 4⟩ ("Single") [0]) ("one") 0
      ([⟨[0], [1], none⟩, ⟨[0], [2], none⟩, ⟨[0], [3], none⟩, ⟨[0], [4], none⟩])
      (by rfl)⟩

/-- C5 counterexample: on a three-string tuning whose only playable fret
combination is (0, 3, 6), every one of the ten returned positions spans 6
frets (max minus min), exceeding 4. -/
theorem chord_positions_span_can_exceed_four :
    ((MusicTheory.mk [("Single", [0])] [] [("tri", ["C4", "A4", "F#4"])]).getChordPositions
        (Chord.mk ⟨"C", 4⟩ ("Single") [0]) ("tri") 6).toOption.map
      (fun l => l.map (fun p => (fretSpan p.frets, p.frets))) =
      some (List.replicate 10 (6, [0, 3, 6])) := by
  decide

end MusicApp
